import Mathlib

/-!
Verification development for the verztable benchmarking wrappers
(`src/verstable_wrapper.c`, `src/cpp_hashtables_wrapper.cpp`).

Machine integers are modelled as `Nat` with explicit reduction modulo
`2 ^ 64` (for `uint64_t` / `size_t`) respectively `2 ^ 32` / `256`
wherever the C code truncates.  A byte buffer `(pointer, len)` is
modelled as a function `p : Nat → Nat` giving the byte at each offset
(each read is taken modulo 256, the range of `uint8_t`) together with
the explicit length.
-/

namespace Verztable

/-! ## Hash engine, from `src/cpp_hashtables_wrapper.cpp`, namespace `wyhash` -/

/-- The four fixed odd 64-bit constants `secret[0..3]` of `wyhash::hash`. -/
def secret0 : Nat := 0xa0761d6478bd642f

/-- Second wyhash secret constant. -/
def secret1 : Nat := 0xe7037ed1a0b428db

/-- Third wyhash secret constant. -/
def secret2 : Nat := 0x8ebc6af09c88c6e3

/-- Fourth wyhash secret constant. -/
def secret3 : Nat := 0x589965cc75374cc3

/-- `wyhash::mum`, native branch (`__SIZEOF_INT128__` available): the full
128-bit product of the two 64-bit inputs, split into low and high halves. -/
def wymum (a b : Nat) : Nat × Nat :=
  let r := (a % 2 ^ 64) * (b % 2 ^ 64)
  (r % 2 ^ 64, r / 2 ^ 64)

/-- `wyhash::mum`, fallback branch: four 32×32→64 partial products with
explicit carry propagation, exactly as in the source. -/
def wymum_fallback (a b : Nat) : Nat × Nat :=
  let a0 := a % 2 ^ 64
  let b0 := b % 2 ^ 64
  let ha := a0 >>> 32
  let hb := b0 >>> 32
  let la := a0 % 2 ^ 32
  let lb := b0 % 2 ^ 32
  let rh := ha * hb
  let rm0 := ha * lb
  let rm1 := hb * la
  let rl := la * lb
  let t := (rl + (rm0 <<< 32) % 2 ^ 64) % 2 ^ 64
  let c := if t < rl then 1 else 0
  let lo := (t + (rm1 <<< 32) % 2 ^ 64) % 2 ^ 64
  let c2 := c + (if lo < t then 1 else 0)
  let hi := (rh + (rm0 >>> 32) + (rm1 >>> 32) + c2) % 2 ^ 64
  (lo, hi)

/-- `wyhash::mix(a, b)`: `mum` then XOR of the two halves (native branch). -/
def wymix (a b : Nat) : Nat :=
  (wymum a b).1 ^^^ (wymum a b).2

/-- `wyhash::mix` computed through the fallback `mum` branch. -/
def wymix_fallback (a b : Nat) : Nat :=
  (wymum_fallback a b).1 ^^^ (wymum_fallback a b).2

/-- `wyhash::r8`: little-endian 8-byte read at offset `off`. -/
def wyr8 (p : Nat → Nat) (off : Nat) : Nat :=
  p off % 256 + p (off + 1) % 256 * 2 ^ 8 + p (off + 2) % 256 * 2 ^ 16 +
    p (off + 3) % 256 * 2 ^ 24 + p (off + 4) % 256 * 2 ^ 32 +
    p (off + 5) % 256 * 2 ^ 40 + p (off + 6) % 256 * 2 ^ 48 +
    p (off + 7) % 256 * 2 ^ 56

/-- `wyhash::r4`: little-endian 4-byte read at offset `off`. -/
def wyr4 (p : Nat → Nat) (off : Nat) : Nat :=
  p off % 256 + p (off + 1) % 256 * 2 ^ 8 + p (off + 2) % 256 * 2 ^ 16 +
    p (off + 3) % 256 * 2 ^ 24

/-- `wyhash::r3(p, k)`: `p[0] << 16 | p[k >> 1] << 8 | p[k - 1]`. -/
def wyr3 (p : Nat → Nat) (k : Nat) : Nat :=
  ((p 0 % 256) <<< 16) ||| ((p (k >>> 1) % 256) <<< 8) ||| (p (k - 1) % 256)

/-- The shared final line of `wyhash::hash`:
`mix(secret[1] ^ len, mix(a ^ secret[1], b ^ seed))`. -/
def wyfinal (len a b seed : Nat) : Nat :=
  wymix (secret1 ^^^ len) (wymix (a ^^^ secret1) (b ^^^ seed))

/-- The `do { ... } while (i > 48)` block of `wyhash::hash` for long inputs:
three interleaved accumulators each folding one 16-byte lane per 48-byte
block.  Returns the updated `(offset, i, seed, see1, see2)`. -/
def wyLoop48 (p : Nat → Nat) (off i seed see1 see2 : Nat) :
    Nat × Nat × Nat × Nat × Nat :=
  let seedN := wymix (wyr8 p off ^^^ secret1) (wyr8 p (off + 8) ^^^ seed)
  let see1N := wymix (wyr8 p (off + 16) ^^^ secret2) (wyr8 p (off + 24) ^^^ see1)
  let see2N := wymix (wyr8 p (off + 32) ^^^ secret3) (wyr8 p (off + 40) ^^^ see2)
  if _h : 48 < i - 48 then wyLoop48 p (off + 48) (i - 48) seedN see1N see2N
  else (off + 48, i - 48, seedN, see1N, see2N)
termination_by i
decreasing_by omega

/-- The `while (i > 16)` loop of `wyhash::hash`: 16-byte strides folded into
the running seed.  Returns the updated `(offset, i, seed)`. -/
def wyLoop16 (p : Nat → Nat) (off i seed : Nat) : Nat × Nat × Nat :=
  if h : 16 < i then
    wyLoop16 p (off + 16) (i - 16)
      (wymix (wyr8 p off ^^^ secret1) (wyr8 p (off + 8) ^^^ seed))
  else (off, i, seed)
termination_by i
decreasing_by omega

/-- The `len > 16` branch of `wyhash::hash`: the optional 48-byte block loop,
then 16-byte strides, then the final two overlapping 8-byte tail reads. -/
def wyhashLong (p : Nat → Nat) (len : Nat) : Nat :=
  let s48 : Nat × Nat × Nat :=
    if 48 < len then
      match wyLoop48 p 0 len secret0 secret0 secret0 with
      | (off, i, seed, see1, see2) => (off, i, seed ^^^ see1 ^^^ see2)
    else (0, len, secret0)
  match wyLoop16 p s48.1 s48.2.1 s48.2.2 with
  | (off, i, seed) =>
      wyfinal len (wyr8 p (off + i - 16)) (wyr8 p (off + i - 8)) seed

/-- `wyhash::hash(key, len)` from `src/cpp_hashtables_wrapper.cpp`
(lines 97-144), over a byte function and an explicit length. -/
def wyhash (p : Nat → Nat) (len : Nat) : Nat :=
  if len ≤ 16 then
    if 4 ≤ len then
      wyfinal len
        ((wyr4 p 0 <<< 32) ||| wyr4 p ((len >>> 3) <<< 2))
        ((wyr4 p (len - 4) <<< 32) ||| wyr4 p (len - 4 - ((len >>> 3) <<< 2)))
        secret0
    else if 0 < len then
      wyfinal len (wyr3 p len) 0 secret0
    else
      wyfinal len 0 0 secret0
  else wyhashLong p len

/-- `WyhashStringView::operator()` (lines 156-163): the hasher handed to every
string-keyed Abseil, Boost and Ankerl instantiation; it simply delegates to
`wyhash::hash` on the key bytes. -/
def wyhashStringView (p : Nat → Nat) (len : Nat) : Nat :=
  wyhash p len

/-- `str_hash` from `src/verstable_wrapper.c` (lines 23-30): FNV-1a over the
key bytes, with 64-bit wrap-around on the multiply. -/
def str_hash (p : Nat → Nat) (len : Nat) : Nat :=
  (List.range len).foldl
    (fun h i => (h ^^^ p i % 256) * 1099511628211 % 2 ^ 64)
    14695981039346656037

/-! ## The fallback `mum` agrees with the native 128-bit multiply -/

/-- Carry-propagation core: if `AB` decomposes into the four partial products
`P0..P3`, the two-step low-half addition with carry flags reconstructs
`AB % 2 ^ 64` and `AB / 2 ^ 64`. -/
theorem mum_carry_core (P0 P1 P2 P3 AB : Nat)
    (h0 : P0 ≤ 18446744065119617025) (h1 : P1 ≤ 18446744065119617025)
    (h2 : P2 ≤ 18446744065119617025) (h3 : P3 ≤ 18446744065119617025)
    (hab : AB = 2 ^ 64 * P0 + 2 ^ 32 * P1 + 2 ^ 32 * P2 + P3) :
    ((P3 + (P1 <<< 32) % 2 ^ 64) % 2 ^ 64 + (P2 <<< 32) % 2 ^ 64) % 2 ^ 64
        = AB % 2 ^ 64 ∧
    (P0 + (P1 >>> 32) + (P2 >>> 32) +
        ((if (P3 + (P1 <<< 32) % 2 ^ 64) % 2 ^ 64 < P3 then 1 else 0) +
          (if ((P3 + (P1 <<< 32) % 2 ^ 64) % 2 ^ 64 + (P2 <<< 32) % 2 ^ 64) % 2 ^ 64
                < (P3 + (P1 <<< 32) % 2 ^ 64) % 2 ^ 64 then 1 else 0))) % 2 ^ 64
        = AB / 2 ^ 64 := by
  simp only [Nat.shiftLeft_eq, Nat.shiftRight_eq_div_pow]
  constructor
  · omega
  · split_ifs <;> omega

/-- The fallback `mum` returns the same pair as the native branch. -/
theorem mum_fallback_eq (a b : Nat) : wymum_fallback a b = wymum a b := by
  simp only [wymum_fallback, wymum]
  have ha0 : a % 2 ^ 64 < 2 ^ 64 := Nat.mod_lt _ (by norm_num)
  have hb0 : b % 2 ^ 64 < 2 ^ 64 := Nat.mod_lt _ (by norm_num)
  set a0 := a % 2 ^ 64 with ha0def
  set b0 := b % 2 ^ 64 with hb0def
  have hsr : ∀ x : Nat, x >>> 32 = x / 2 ^ 32 := fun x => Nat.shiftRight_eq_div_pow x 32
  rw [hsr a0, hsr b0]
  have hha : a0 / 2 ^ 32 ≤ 2 ^ 32 - 1 := by omega
  have hhb : b0 / 2 ^ 32 ≤ 2 ^ 32 - 1 := by omega
  have hla : a0 % 2 ^ 32 ≤ 2 ^ 32 - 1 := by omega
  have hlb : b0 % 2 ^ 32 ≤ 2 ^ 32 - 1 := by omega
  have hsplit : a0 * b0 =
      2 ^ 64 * (a0 / 2 ^ 32 * (b0 / 2 ^ 32)) + 2 ^ 32 * (a0 / 2 ^ 32 * (b0 % 2 ^ 32)) +
        2 ^ 32 * (b0 / 2 ^ 32 * (a0 % 2 ^ 32)) + a0 % 2 ^ 32 * (b0 % 2 ^ 32) := by
    have e1 : a0 = 2 ^ 32 * (a0 / 2 ^ 32) + a0 % 2 ^ 32 := (Nat.div_add_mod a0 (2 ^ 32)).symm
    have e2 : b0 = 2 ^ 32 * (b0 / 2 ^ 32) + b0 % 2 ^ 32 := (Nat.div_add_mod b0 (2 ^ 32)).symm
    calc a0 * b0
        = (2 ^ 32 * (a0 / 2 ^ 32) + a0 % 2 ^ 32) * (2 ^ 32 * (b0 / 2 ^ 32) + b0 % 2 ^ 32) := by
          rw [← e1, ← e2]
      _ = 2 ^ 64 * (a0 / 2 ^ 32 * (b0 / 2 ^ 32)) + 2 ^ 32 * (a0 / 2 ^ 32 * (b0 % 2 ^ 32)) +
            2 ^ 32 * (b0 / 2 ^ 32 * (a0 % 2 ^ 32)) + a0 % 2 ^ 32 * (b0 % 2 ^ 32) := by ring
  have core := mum_carry_core (a0 / 2 ^ 32 * (b0 / 2 ^ 32)) (a0 / 2 ^ 32 * (b0 % 2 ^ 32))
    (b0 / 2 ^ 32 * (a0 % 2 ^ 32)) (a0 % 2 ^ 32 * (b0 % 2 ^ 32)) (a0 * b0)
    (by calc a0 / 2 ^ 32 * (b0 / 2 ^ 32) ≤ (2 ^ 32 - 1) * (2 ^ 32 - 1) :=
            Nat.mul_le_mul hha hhb
          _ = 18446744065119617025 := by norm_num)
    (by calc a0 / 2 ^ 32 * (b0 % 2 ^ 32) ≤ (2 ^ 32 - 1) * (2 ^ 32 - 1) :=
            Nat.mul_le_mul hha hlb
          _ = 18446744065119617025 := by norm_num)
    (by calc b0 / 2 ^ 32 * (a0 % 2 ^ 32) ≤ (2 ^ 32 - 1) * (2 ^ 32 - 1) :=
            Nat.mul_le_mul hhb hla
          _ = 18446744065119617025 := by norm_num)
    (by calc a0 % 2 ^ 32 * (b0 % 2 ^ 32) ≤ (2 ^ 32 - 1) * (2 ^ 32 - 1) :=
            Nat.mul_le_mul hla hlb
          _ = 18446744065119617025 := by norm_num)
    hsplit
  exact Prod.ext core.1 core.2

/-! ## Table model

The underlying containers (Abseil/Boost/Ankerl tables and the Verstable
instantiations generated from `Verstable/verstable.h`, which is not under
`src/`) are external to the wrapper sources.  They are modelled from the
spec's Table Capability Contract as an association list of live entries:
a key occupies at most one entry, `insert` adds an absent key or overwrites
the value of a present one, `erase` removes a present key, `size` is the
distinct-key count, and iteration visits the live entries. -/

/-- Modelled from the spec: lookup of a key among the live entries of the
underlying container (`find` of the external table; absent keys yield a
normal negative result). -/
def findEntry {κ ν : Type} [DecidableEq κ] (m : List (κ × ν)) (k : κ) : Option ν :=
  match m with
  | [] => none
  | (k2, v) :: rest => if k2 = k then some v else findEntry rest k

/-- Modelled from the spec: presence test for a key in the underlying
container. -/
def containsKey {κ ν : Type} [DecidableEq κ] (m : List (κ × ν)) (k : κ) : Bool :=
  (findEntry m k).isSome

/-- Modelled from the spec: overwrite the value stored under a present key,
leaving every other entry in place. -/
def assignVal {κ ν : Type} [DecidableEq κ] (m : List (κ × ν)) (k : κ) (v : ν) :
    List (κ × ν) :=
  match m with
  | [] => []
  | (k2, v2) :: rest => if k2 = k then (k2, v) :: rest else (k2, v2) :: assignVal rest k v

/-- Modelled from the spec: `insert_or_assign` of the external containers —
inserts if absent, overwrites the value if present. -/
def insertOrAssign {κ ν : Type} [DecidableEq κ] (m : List (κ × ν)) (k : κ) (v : ν) :
    List (κ × ν) :=
  if containsKey m k then assignVal m k v else m ++ [(k, v)]

/-- Modelled from the spec: `erase` of the external containers — removes the
entries holding the key and reports how many were removed. -/
def eraseKey {κ ν : Type} [DecidableEq κ] (m : List (κ × ν)) (k : κ) :
    Nat × List (κ × ν) :=
  match m with
  | [] => (0, [])
  | (k2, v) :: rest =>
      let r := eraseKey rest k
      if k2 = k then (r.1 + 1, r.2) else (r.1, (k2, v) :: r.2)

/-- The `memcpy(v.data, val, val_size)` of the map wrappers: the value stored
is the first `n` bytes of the caller's buffer. -/
def copyBytes (val : Nat → Nat) (n : Nat) : List Nat :=
  (List.range n).map (fun i => val i % 256)

/-! ## C++ wrapper operations, from `src/cpp_hashtables_wrapper.cpp` -/

/-- `prefix##_insert` of `DEFINE_INT_SET_WRAPPERS` (lines 231-235): forwards
to the container's `insert` and returns the `inserted` flag as 1 or 0. -/
def cpp_set_insert {κ : Type} [DecidableEq κ] (s : List κ) (k : κ) : Nat × List κ :=
  if k ∈ s then (0, s) else (1, s ++ [k])

/-- `prefix##_insert` of `DEFINE_INT_MAP_WRAPPERS` (lines 266-272): copies
`val_size` value bytes, calls `insert_or_assign`, and returns 1
unconditionally (the `inserted` flag is discarded). -/
def cpp_map_insert {κ : Type} [DecidableEq κ] (m : List (κ × List Nat)) (k : κ)
    (val : Nat → Nat) (n : Nat) : Nat × List (κ × List Nat) :=
  (1, insertOrAssign m k (copyBytes val n))

/-- `prefix##_get` of `DEFINE_INT_MAP_WRAPPERS` (lines 273-278): `find`, then
either a null pointer (`none`) or a borrow of the stored value bytes. -/
def cpp_map_get {κ : Type} [DecidableEq κ] (m : List (κ × List Nat)) (k : κ) :
    Option (List Nat) :=
  findEntry m k

/-- `prefix##_erase` of `DEFINE_INT_MAP_WRAPPERS` (lines 279-282): returns 1
when the container erased at least one entry, else 0. -/
def cpp_map_erase {κ ν : Type} [DecidableEq κ] (m : List (κ × ν)) (k : κ) :
    Nat × List (κ × ν) :=
  ((if (eraseKey m k).1 > 0 then 1 else 0), (eraseKey m k).2)

/-- `prefix##_size` (lines 283-285): the container's element count. -/
def cpp_map_size {κ ν : Type} (m : List (κ × ν)) : Nat :=
  m.length

/-- `prefix##_iter_count` (lines 286-291): walks the container from `begin`
to `end`, incrementing a counter per visited entry. -/
def cpp_map_iter_count {κ ν : Type} (m : List (κ × ν)) : Nat :=
  m.foldl (fun c _ => c + 1) 0

/-- A C++ table handle as seen by the `_memory` wrappers: its live entries
plus the reserved bucket count of the backend (modelled from the spec, the
bucket layout being internal to the external container). -/
structure CppTable (κ ν : Type) where
  entries : List (κ × ν)
  buckets : Nat

/-- `prefix##_memory` (lines 253-256 and 292-295):
`bucket_count() * sizeof(value_type) + sizeof(Table)`. -/
def cpp_memory {κ ν : Type} (t : CppTable κ ν) (entrySize tableOverhead : Nat) : Nat :=
  t.buckets * entrySize + tableOverhead

/-- Definition following the words of the spec (section 4.4): reserved bucket
count times per-entry storage size, plus the fixed table overhead; the
owning-string per-key allocation sum is absent for non-owning backends. -/
def spec_memory_nonowning (bucketCount perEntry overhead : Nat) : Nat :=
  bucketCount * perEntry + overhead

/-! ## Verstable wrapper operations, from `src/verstable_wrapper.c`

The generated `internal_name##_insert` returns an end iterator only on
allocation failure, which the spec declares fatal and unrecoverable; the
model therefore has insertion always succeed. -/

/-- `prefix##_insert` of `DEFINE_INT_SET_WRAPPERS` (lines 147-150): inserts
and returns `!is_end(itr)`, i.e. 1 whenever the insert succeeded —
whether or not the key was already present. -/
def vt_set_insert {κ : Type} [DecidableEq κ] (s : List κ) (k : κ) : Nat × List κ :=
  (1, if k ∈ s then s else s ++ [k])

/-- `prefix##_insert` of `DEFINE_INT_MAP_WRAPPERS` in the Verstable wrapper
(lines 187-192): copies the value bytes, inserts (overwriting a present
key), and returns `!is_end(itr)` = 1 on success. -/
def vt_map_insert {κ : Type} [DecidableEq κ] (m : List (κ × List Nat)) (k : κ)
    (val : Nat → Nat) (n : Nat) : Nat × List (κ × List Nat) :=
  (1, insertOrAssign m k (copyBytes val n))

/-- `prefix##_get` of the Verstable map wrappers (lines 193-197): null on a
missing key, otherwise a borrow of `itr.data->val.data`. -/
def vt_map_get {κ : Type} [DecidableEq κ] (m : List (κ × List Nat)) (k : κ) :
    Option (List Nat) :=
  findEntry m k

/-- `prefix##_erase` of the Verstable wrappers (lines 198-200): the internal
erase reports whether the key was present and removed. -/
def vt_map_erase {κ ν : Type} [DecidableEq κ] (m : List (κ × ν)) (k : κ) :
    Nat × List (κ × ν) :=
  ((if containsKey m k then 1 else 0), (eraseKey m k).2)

/-! ## Operation sequences (reachable table states) -/

/-- One mutating call on a map handle: an insert with a value buffer of the
instantiation's width `n`, or an erase. -/
inductive TOp (κ : Type) where
  | ins (k : κ) (val : Nat → Nat) (n : Nat)
  | del (k : κ)

/-- The key an operation targets. -/
def TOp.key {κ : Type} : TOp κ → κ
  | .ins k _ _ => k
  | .del k => k

/-- State transition of one wrapper call (the returned status is dropped). -/
def applyOp {κ : Type} [DecidableEq κ] (m : List (κ × List Nat)) : TOp κ →
    List (κ × List Nat)
  | .ins k val n => (cpp_map_insert m k val n).2
  | .del k => (cpp_map_erase m k).2

/-- The table state reached from a freshly created (empty) table by a
sequence of insert/erase calls. -/
def runOps {κ : Type} [DecidableEq κ] (ops : List (TOp κ)) : List (κ × List Nat) :=
  ops.foldl applyOp []

/-! ## Verstable cursor, from `src/verstable_wrapper.h` and the wrappers -/

/-- The metadata-scan half of `vt_generic_iter`: the current metadata
pointer and the metadata-end pointer, modelled as indices into the
metadata array. -/
structure VtIter where
  metadatum : Nat
  mdEnd : Nat
deriving DecidableEq

/-- `prefix##_is_end` (verstable_wrapper.c lines 166-168):
`iter.metadatum == iter.metadata_end ? 1 : 0`. -/
def vt_iter_is_end (it : VtIter) : Nat :=
  if it.metadatum = it.mdEnd then 1 else 0

/-- Modelled from the spec: advancing scans the metadata array forward,
skipping empty/tombstoned buckets (`false`), until an occupied bucket
(`true`) is found or metadata-end is reached.  (The scan itself lives in
`Verstable/verstable.h`, which is not under `src/`.) -/
def vtScan (md : List Bool) (i : Nat) : Nat :=
  if h : i < md.length then
    if md.get ⟨i, h⟩ then i else vtScan md (i + 1)
  else md.length
termination_by md.length - i

/-- Modelled from the spec: `prefix##_first` positions the cursor on the
first occupied bucket (or at the end). -/
def vt_iter_first (md : List Bool) : VtIter :=
  ⟨vtScan md 0, md.length⟩

/-- Modelled from the spec: `prefix##_next` advances past the current bucket
to the next occupied one (or to the end). -/
def vt_iter_next (md : List Bool) (it : VtIter) : VtIter :=
  ⟨vtScan md (it.metadatum + 1), md.length⟩

/-- Cursors produced by `first` followed by any number of `next` steps over
a fixed metadata array. -/
inductive VtReach (md : List Bool) : VtIter → Prop where
  | first : VtReach md (vt_iter_first md)
  | step : ∀ it, VtReach md it → VtReach md (vt_iter_next md it)

/-! ## Lemmas about the table model -/

theorem findEntry_eq_none {κ ν : Type} [DecidableEq κ] (m : List (κ × ν)) (k : κ) :
    findEntry m k = none ↔ k ∉ m.map Prod.fst := by
  induction m with
  | nil => simp [findEntry]
  | cons e rest ih =>
      obtain ⟨k2, v⟩ := e
      by_cases h : k2 = k
      · subst h; simp [findEntry]
      · simp [findEntry, h, ih, Ne.symm h]

theorem containsKey_false_iff {κ ν : Type} [DecidableEq κ] (m : List (κ × ν)) (k : κ) :
    containsKey m k = false ↔ k ∉ m.map Prod.fst := by
  rw [← findEntry_eq_none]
  unfold containsKey
  cases findEntry m k <;> simp

theorem findEntry_assignVal_self {κ ν : Type} [DecidableEq κ] (m : List (κ × ν))
    (k : κ) (v : ν) (h : containsKey m k = true) :
    findEntry (assignVal m k v) k = some v := by
  induction m with
  | nil => simp [containsKey, findEntry] at h
  | cons e rest ih =>
      obtain ⟨k2, v2⟩ := e
      by_cases hk : k2 = k
      · subst hk; simp [assignVal, findEntry]
      · simp only [assignVal, if_neg hk, findEntry]
        exact ih (by simpa [containsKey, findEntry, hk] using h)

theorem findEntry_append_self {κ ν : Type} [DecidableEq κ] (m : List (κ × ν))
    (k : κ) (v : ν) (h : containsKey m k = false) :
    findEntry (m ++ [(k, v)]) k = some v := by
  induction m with
  | nil => simp [findEntry]
  | cons e rest ih =>
      obtain ⟨k2, v2⟩ := e
      have hk : ¬k2 = k := by
        intro hkk
        subst hkk
        simp [containsKey, findEntry] at h
      simp only [List.cons_append, findEntry, if_neg hk]
      exact ih (by simpa [containsKey, findEntry, hk] using h)

theorem findEntry_insertOrAssign_self {κ ν : Type} [DecidableEq κ] (m : List (κ × ν))
    (k : κ) (v : ν) : findEntry (insertOrAssign m k v) k = some v := by
  unfold insertOrAssign
  by_cases h : containsKey m k = true
  · rw [if_pos h]; exact findEntry_assignVal_self m k v h
  · rw [if_neg h]
    exact findEntry_append_self m k v (by revert h; cases containsKey m k <;> simp)

theorem findEntry_assignVal_ne {κ ν : Type} [DecidableEq κ] (m : List (κ × ν))
    (k2 k : κ) (v : ν) (hne : k2 ≠ k) :
    findEntry (assignVal m k2 v) k = findEntry m k := by
  induction m with
  | nil => simp [assignVal]
  | cons e rest ih =>
      obtain ⟨k3, v3⟩ := e
      by_cases hk : k3 = k2
      · subst hk
        simp only [assignVal, if_pos rfl, findEntry]
        rw [if_neg (by exact hne), if_neg (by exact hne)]
      · simp only [assignVal, if_neg hk, findEntry]
        split
        · rfl
        · exact ih

theorem findEntry_append_ne {κ ν : Type} [DecidableEq κ] (m : List (κ × ν))
    (k2 k : κ) (v : ν) (hne : k2 ≠ k) :
    findEntry (m ++ [(k2, v)]) k = findEntry m k := by
  induction m with
  | nil => simp [findEntry, hne]
  | cons e rest ih =>
      obtain ⟨k3, v3⟩ := e
      simp only [List.cons_append, findEntry]
      split
      · rfl
      · exact ih

theorem findEntry_insertOrAssign_ne {κ ν : Type} [DecidableEq κ] (m : List (κ × ν))
    (k2 k : κ) (v : ν) (hne : k2 ≠ k) :
    findEntry (insertOrAssign m k2 v) k = findEntry m k := by
  unfold insertOrAssign
  split
  · exact findEntry_assignVal_ne m k2 k v hne
  · exact findEntry_append_ne m k2 k v hne

theorem eraseKey_snd_findEntry_ne {κ ν : Type} [DecidableEq κ] (m : List (κ × ν))
    (k2 k : κ) (hne : k2 ≠ k) :
    findEntry (eraseKey m k2).2 k = findEntry m k := by
  induction m with
  | nil => simp [eraseKey]
  | cons e rest ih =>
      obtain ⟨k3, v3⟩ := e
      by_cases hk : k3 = k2
      · subst hk
        have hne2 : ¬k3 = k := hne
        simpa [eraseKey, findEntry, hne2] using ih
      · simp only [eraseKey, if_neg hk]
        simp only [findEntry]
        split
        · rfl
        · exact ih

theorem eraseKey_snd_findEntry_self {κ ν : Type} [DecidableEq κ] (m : List (κ × ν))
    (k : κ) : findEntry (eraseKey m k).2 k = none := by
  induction m with
  | nil => simp [eraseKey, findEntry]
  | cons e rest ih =>
      obtain ⟨k2, v⟩ := e
      by_cases hk : k2 = k
      · subst hk; simpa [eraseKey] using ih
      · simpa [eraseKey, hk, findEntry] using ih

theorem eraseKey_fst_pos_iff {κ ν : Type} [DecidableEq κ] (m : List (κ × ν)) (k : κ) :
    0 < (eraseKey m k).1 ↔ containsKey m k = true := by
  induction m with
  | nil => simp [eraseKey, containsKey, findEntry]
  | cons e rest ih =>
      obtain ⟨k2, v⟩ := e
      by_cases hk : k2 = k
      · subst hk; simp [eraseKey, containsKey, findEntry]
      · simpa [eraseKey, hk, containsKey, findEntry] using ih

theorem eraseKey_absent {κ ν : Type} [DecidableEq κ] (m : List (κ × ν)) (k : κ)
    (h : containsKey m k = false) : eraseKey m k = (0, m) := by
  induction m with
  | nil => simp [eraseKey]
  | cons e rest ih =>
      obtain ⟨k2, v⟩ := e
      have hk : ¬k2 = k := by
        intro hkk; subst hkk
        simp [containsKey, findEntry] at h
      have hrest : containsKey rest k = false := by
        simpa [containsKey, findEntry, hk] using h
      simp [eraseKey, hk, ih hrest]

theorem map_fst_assignVal {κ ν : Type} [DecidableEq κ] (m : List (κ × ν))
    (k : κ) (v : ν) : (assignVal m k v).map Prod.fst = m.map Prod.fst := by
  induction m with
  | nil => simp [assignVal]
  | cons e rest ih =>
      obtain ⟨k2, v2⟩ := e
      by_cases hk : k2 = k
      · simp [assignVal, hk]
      · simp [assignVal, hk, ih]

theorem nodup_keys_insertOrAssign {κ ν : Type} [DecidableEq κ] (m : List (κ × ν))
    (k : κ) (v : ν) (h : (m.map Prod.fst).Nodup) :
    ((insertOrAssign m k v).map Prod.fst).Nodup := by
  unfold insertOrAssign
  split
  · rw [map_fst_assignVal]; exact h
  · rename_i hc
    have hk : k ∉ m.map Prod.fst := by
      apply (containsKey_false_iff m k).mp
      revert hc; cases containsKey m k <;> simp
    rw [List.map_append]
    simp only [List.map_cons, List.map_nil]
    rw [List.nodup_append]
    refine ⟨h, List.nodup_singleton k, ?_⟩
    intro x hx hx1
    simp only [List.mem_singleton] at hx1
    subst hx1
    exact hk hx

theorem eraseKey_snd_sublist {κ ν : Type} [DecidableEq κ] (m : List (κ × ν)) (k : κ) :
    (eraseKey m k).2.Sublist m := by
  induction m with
  | nil => simp [eraseKey]
  | cons e rest ih =>
      obtain ⟨k2, v⟩ := e
      by_cases hk : k2 = k
      · simpa [eraseKey, hk] using ih.cons (k2, v)
      · simpa [eraseKey, hk] using ih.cons₂ (k2, v)

theorem nodup_keys_eraseKey {κ ν : Type} [DecidableEq κ] (m : List (κ × ν)) (k : κ)
    (h : (m.map Prod.fst).Nodup) : ((eraseKey m k).2.map Prod.fst).Nodup :=
  h.sublist ((eraseKey_snd_sublist m k).map Prod.fst)

theorem nodup_keys_foldl {κ : Type} [DecidableEq κ] (ops : List (TOp κ))
    (m : List (κ × List Nat)) (h : (m.map Prod.fst).Nodup) :
    ((ops.foldl applyOp m).map Prod.fst).Nodup := by
  induction ops generalizing m with
  | nil => exact h
  | cons op rest ih =>
      simp only [List.foldl_cons]
      apply ih
      cases op with
      | ins k val n => exact nodup_keys_insertOrAssign m k _ h
      | del k => exact nodup_keys_eraseKey m k h

theorem nodup_keys_runOps {κ : Type} [DecidableEq κ] (ops : List (TOp κ)) :
    ((runOps ops).map Prod.fst).Nodup :=
  nodup_keys_foldl ops [] (by simp)

theorem foldl_count_eq_length {α : Type} (l : List α) (n : Nat) :
    l.foldl (fun c _ => c + 1) n = n + l.length := by
  induction l generalizing n with
  | nil => simp
  | cons a t ih => simp only [List.foldl_cons, List.length_cons, ih]; omega

/-! ## Lemmas about the cursor scan -/

theorem vtScan_le (md : List Bool) (i : Nat) : vtScan md i ≤ md.length := by
  have key : ∀ n i, md.length - i ≤ n → vtScan md i ≤ md.length := by
    intro n
    induction n with
    | zero =>
        intro i hi
        unfold vtScan
        rw [dif_neg (by omega)]
    | succ n ih =>
        intro i hi
        unfold vtScan
        split
        · split
          · omega
          · exact ih (i + 1) (by omega)
        · exact Nat.le_refl _
  exact key (md.length - i) i (Nat.le_refl _)

theorem vtScan_eq_length_iff (md : List Bool) (i : Nat) :
    vtScan md i = md.length ↔
      ∀ j, i ≤ j → ∀ hj : j < md.length, md.get ⟨j, hj⟩ = false := by
  have key : ∀ n i, md.length - i ≤ n →
      (vtScan md i = md.length ↔
        ∀ j, i ≤ j → ∀ hj : j < md.length, md.get ⟨j, hj⟩ = false) := by
    intro n
    induction n with
    | zero =>
        intro i hi
        unfold vtScan
        rw [dif_neg (by omega)]
        simp only [true_iff]
        intro j hj hjl
        omega
    | succ n ih =>
        intro i hi
        unfold vtScan
        split
        · rename_i hlt
          split
          · rename_i hocc
            constructor
            · intro h; omega
            · intro h
              have := h i (Nat.le_refl i) hlt
              rw [hocc] at this
              cases this
          · rename_i hocc
            rw [ih (i + 1) (by omega)]
            constructor
            · intro h j hj hjl
              rcases Nat.eq_or_lt_of_le hj with rfl | hj2
              · simpa using hocc
              · exact h j hj2 hjl
            · intro h j hj hjl
              exact h j (by omega) hjl
        · simp only [true_iff]
          intro j hj hjl
          omega
  exact key (md.length - i) i (Nat.le_refl _)

theorem vtReach_mdEnd {md : List Bool} {it : VtIter} (h : VtReach md it) :
    it.mdEnd = md.length ∧ it.metadatum ≤ md.length := by
  induction h with
  | first => exact ⟨rfl, vtScan_le md 0⟩
  | step it _ _ => exact ⟨rfl, vtScan_le md _⟩

/-! ## Spec-side description of the short-input lanes -/

/-- Definition following the words of the spec (claim C3): for `len` in
`[4,16]` lane `a` is the 4-byte read at offset 0 in the high half OR-ed with
the 4-byte read at offset `(len >> 3) << 2` in the low half, lane `b` the
4-byte read at offset `len - 4` in the high half OR-ed with the one at
`len - 4 - ((len >> 3) << 2)`; for `len` in `[1,3]` lane
`a = byte0 << 16 | byte[len >> 1] << 8 | byte[len - 1]` and `b = 0`; for
`len = 0` both lanes are zero; the result is
`mix(secret1 XOR len, mix(a XOR secret1, b XOR seed))` with `seed = secret0`. -/
def wyhash_short_spec (p : Nat → Nat) (len : Nat) : Nat :=
  if 4 ≤ len ∧ len ≤ 16 then
    wymix (secret1 ^^^ len)
      (wymix (((wyr4 p 0 <<< 32) ||| wyr4 p ((len >>> 3) <<< 2)) ^^^ secret1)
        (((wyr4 p (len - 4) <<< 32) ||| wyr4 p (len - 4 - ((len >>> 3) <<< 2))) ^^^ secret0))
  else if 1 ≤ len ∧ len ≤ 3 then
    wymix (secret1 ^^^ len)
      (wymix ((((p 0 % 256) <<< 16) ||| ((p (len >>> 1) % 256) <<< 8) ||| (p (len - 1) % 256)) ^^^
          secret1)
        (0 ^^^ secret0))
  else
    wymix (secret1 ^^^ len) (wymix (0 ^^^ secret1) (0 ^^^ secret0))

/-- How many times one full forward traversal visits the entry `e`. -/
def countVisits {α : Type} [DecidableEq α] (e : α) : List α → Nat
  | [] => 0
  | a :: t => (if a = e then 1 else 0) + countVisits e t

theorem countVisits_eq_zero {α : Type} [DecidableEq α] (t : List α) (e : α)
    (he : e ∉ t) : countVisits e t = 0 := by
  induction t with
  | nil => rfl
  | cons a t ih =>
      show (if a = e then 1 else 0) + countVisits e t = 0
      have hne : ¬a = e := fun hh => he (by rw [← hh]; exact List.mem_cons_self a t)
      rw [if_neg hne, ih (fun hh => he (List.mem_cons_of_mem a hh))]

theorem countVisits_eq_one {α : Type} [DecidableEq α] (l : List α) (hnd : l.Nodup)
    (e : α) (he : e ∈ l) : countVisits e l = 1 := by
  induction l with
  | nil => cases he
  | cons a t ih =>
      rw [List.nodup_cons] at hnd
      rcases List.mem_cons.mp he with rfl | ht
      · show (if e = e then 1 else 0) + countVisits e t = 1
        rw [if_pos rfl, countVisits_eq_zero t e hnd.1]
      · show (if a = e then 1 else 0) + countVisits e t = 1
        have hne : ¬a = e := fun hh => hnd.1 (by rw [hh]; exact ht)
        rw [if_neg hne, ih hnd.2 ht]

/-- Invariance of a lookup under wrapper calls that target other keys. -/
theorem findEntry_foldl_untouched {κ : Type} [DecidableEq κ]
    (ops : List (TOp κ)) (st : List (κ × List Nat)) (k : κ)
    (hops : ∀ op ∈ ops, op.key ≠ k) :
    findEntry (ops.foldl applyOp st) k = findEntry st k := by
  induction ops generalizing st with
  | nil => rfl
  | cons op rest ih =>
      simp only [List.foldl_cons]
      rw [ih _ (fun o ho => hops o (List.mem_cons_of_mem _ ho))]
      cases op with
      | ins k2 val n =>
          exact findEntry_insertOrAssign_ne st k2 k _ (hops _ (List.mem_cons_self _ _))
      | del k2 =>
          exact eraseKey_snd_findEntry_ne st k2 k (hops _ (List.mem_cons_self _ _))

/-! ## The claims -/

/-- C1, counterexample: the claim says `str_hash` and `wyhash::hash` produce
the identical 64-bit value for every byte sequence; already on the empty
sequence `str_hash` returns the FNV-1a offset basis 14695981039346656037
while `wyhash::hash` returns a different value. -/
theorem c1_hashes_differ_on_empty :
    str_hash (fun _ => 0) 0 ≠ wyhash (fun _ => 0) 0 := by decide

/-- C1, amended: the three C++ backends do share one string hash — each
string-keyed instantiation hashes through `WyhashStringView`, which is
exactly `wyhash::hash` — so they agree per key with one another; but the
Verstable wrapper's `str_hash` is FNV-1a, a different function, which
already disagrees with `wyhash::hash` on the empty key. -/
theorem c1_cpp_backends_share_wyhash :
    (∀ (p : Nat → Nat) (len : Nat), wyhashStringView p len = wyhash p len) ∧
      str_hash (fun _ => 0) 0 ≠ wyhashStringView (fun _ => 0) 0 :=
  ⟨fun _ _ => rfl, by decide⟩

/-- C2, counterexample: the claim says insert returns 0 when the key is
already present; the C++ map wrapper discards the `inserted` flag and
returns 1 even though key 5 is present. -/
theorem c2_map_insert_always_one :
    containsKey [((5 : Nat), [(9 : Nat)])] 5 = true ∧
      (cpp_map_insert [((5 : Nat), [(9 : Nat)])] 5 (fun _ => 7) 1).1 ≠ 0 := by
  constructor
  · decide
  · decide

/-- C2, amended: only the C++ set wrappers return 1 exactly when the key was
absent; the C++ map wrappers always return 1 (they call `insert_or_assign`,
which still updates the stored value of a present key), and the Verstable
wrappers return 1 on every successful insert whether or not the key was
present. -/
theorem c2_insert_return_amended {κ : Type} [DecidableEq κ] :
    (∀ (s : List κ) (k : κ), (cpp_set_insert s k).1 = 1 ↔ k ∉ s) ∧
    (∀ (m : List (κ × List Nat)) (k : κ) (val : Nat → Nat) (n : Nat),
      (cpp_map_insert m k val n).1 = 1 ∧
        cpp_map_get (cpp_map_insert m k val n).2 k = some (copyBytes val n)) ∧
    (∀ (s : List κ) (k : κ), (vt_set_insert s k).1 = 1) ∧
    (∀ (m : List (κ × List Nat)) (k : κ) (val : Nat → Nat) (n : Nat),
      (vt_map_insert m k val n).1 = 1) := by
  refine ⟨fun s k => ?_, fun m k val n => ⟨rfl, findEntry_insertOrAssign_self m k _⟩,
    fun s k => rfl, fun m k val n => rfl⟩
  unfold cpp_set_insert
  split
  · rename_i h; simp [h]
  · rename_i h; simp [h]

/-- C3: on every input of length at most 16, `wyhash::hash` forms the two
64-bit lanes and the final mix exactly as the spec describes them. -/
theorem c3_short_input_lanes (p : Nat → Nat) (len : Nat) (h : len ≤ 16) :
    wyhash p len = wyhash_short_spec p len := by
  by_cases h4 : 4 ≤ len
  · unfold wyhash wyhash_short_spec wyfinal
    rw [if_pos h, if_pos h4, if_pos (show 4 ≤ len ∧ len ≤ 16 from ⟨h4, h⟩)]
  · by_cases h0 : 0 < len
    · unfold wyhash wyhash_short_spec wyfinal wyr3
      rw [if_pos h, if_neg h4, if_pos h0,
        if_neg (show ¬(4 ≤ len ∧ len ≤ 16) by omega),
        if_pos (show 1 ≤ len ∧ len ≤ 3 by omega)]
    · unfold wyhash wyhash_short_spec wyfinal
      rw [if_pos h, if_neg h4, if_neg h0,
        if_neg (show ¬(4 ≤ len ∧ len ≤ 16) by omega),
        if_neg (show ¬(1 ≤ len ∧ len ≤ 3) by omega)]

/-- Witness for C3 at a concrete 7-byte input. -/
theorem c3_short_input_lanes_witness :
    (7 : Nat) ≤ 16 ∧ wyhash (fun i => i + 11) 7 = wyhash_short_spec (fun i => i + 11) 7 :=
  ⟨by decide, c3_short_input_lanes (fun i => i + 11) 7 (by decide)⟩

/-- C4: for all 64-bit inputs, the carry-propagating fallback branch of
`mum` produces exactly the (low, high) pair of the native 128-bit multiply,
so `mix` is identical on both paths. -/
theorem c4_mum_fallback_matches_native (a b : Nat) :
    wymum_fallback a b = wymum a b ∧ wymix_fallback a b = wymix a b := by
  refine ⟨mum_fallback_eq a b, ?_⟩
  unfold wymix_fallback wymix
  rw [mum_fallback_eq]

/-- C5: after `insert(h, k, v)`, `get(h, k)` returns a non-null borrow whose
bytes are the `n` copied value bytes, and it continues to do so across any
further wrapper calls that target only other keys (until `k` itself is
erased or overwritten); likewise for the Verstable map wrappers. -/
theorem c5_insert_get_round_trip {κ : Type} [DecidableEq κ]
    (m : List (κ × List Nat)) (k : κ) (val : Nat → Nat) (n : Nat)
    (ops : List (TOp κ)) (hops : ∀ op ∈ ops, op.key ≠ k) :
    cpp_map_get (ops.foldl applyOp (cpp_map_insert m k val n).2) k
        = some (copyBytes val n) ∧
      vt_map_get (vt_map_insert m k val n).2 k = some (copyBytes val n) := by
  refine ⟨?_, findEntry_insertOrAssign_self m k _⟩
  have hinv := findEntry_foldl_untouched ops (cpp_map_insert m k val n).2 k hops
  exact hinv.trans (findEntry_insertOrAssign_self m k _)

/-- Witness for C5: insert key 1, then insert and erase key 2; key 1 still
maps to its two copied value bytes. -/
theorem c5_insert_get_round_trip_witness :
    cpp_map_get
        ([TOp.ins 2 (fun _ => 4) 2, TOp.del 2].foldl applyOp
          (cpp_map_insert ([] : List (Nat × List Nat)) 1 (fun _ => 3) 2).2) 1
        = some (copyBytes (fun _ => 3) 2) ∧
      vt_map_get (vt_map_insert ([] : List (Nat × List Nat)) 1 (fun _ => 3) 2).2 1
        = some (copyBytes (fun _ => 3) 2) :=
  c5_insert_get_round_trip [] 1 (fun _ => 3) 2 [TOp.ins 2 (fun _ => 4) 2, TOp.del 2]
    (by
      intro op hop
      rcases List.mem_cons.mp hop with rfl | hop2
      · decide
      rcases List.mem_cons.mp hop2 with rfl | hop3
      · decide
      · exact absurd hop3 (List.not_mem_nil op))

/-- C6: `erase` returns 1 exactly when the key was present (and the key is
then gone); on an absent key it returns 0 and leaves the table — in
particular its size — unchanged.  Both the C++ and the Verstable map
wrappers satisfy this. -/
theorem c6_erase_contract {κ ν : Type} [DecidableEq κ] (m : List (κ × ν)) (k : κ) :
    ((cpp_map_erase m k).1 = 1 ↔ containsKey m k = true) ∧
    ((vt_map_erase m k).1 = 1 ↔ containsKey m k = true) ∧
    containsKey (cpp_map_erase m k).2 k = false ∧
    (containsKey m k = false →
      (cpp_map_erase m k).1 = 0 ∧ (cpp_map_erase m k).2 = m ∧
        cpp_map_size (cpp_map_erase m k).2 = cpp_map_size m) := by
  have hpos := eraseKey_fst_pos_iff m k
  refine ⟨?_, ?_, ?_, fun habs => ?_⟩
  · show (if 0 < (eraseKey m k).1 then 1 else 0) = 1 ↔ containsKey m k = true
    by_cases hc : containsKey m k = true
    · rw [if_pos (hpos.mpr hc)]; simp [hc]
    · rw [if_neg (fun hp => hc (hpos.mp hp))]; simp [hc]
  · show (if containsKey m k = true then 1 else 0) = 1 ↔ containsKey m k = true
    by_cases hc : containsKey m k = true
    · rw [if_pos hc]; simp [hc]
    · rw [if_neg hc]; simp [hc]
  · show containsKey (eraseKey m k).2 k = false
    unfold containsKey
    rw [eraseKey_snd_findEntry_self]
    rfl
  · have he := eraseKey_absent m k habs
    refine ⟨?_, ?_, ?_⟩
    · show (if 0 < (eraseKey m k).1 then 1 else 0) = 0
      rw [he]; simp
    · show (eraseKey m k).2 = m
      rw [he]
    · show cpp_map_size (eraseKey m k).2 = cpp_map_size m
      rw [he]

/-- Witness for C6 on a table holding key 2, erasing the absent key 5. -/
theorem c6_erase_contract_witness :
    containsKey [((2 : Nat), [(1 : Nat)])] 5 = false ∧
      ((cpp_map_erase [((2 : Nat), [(1 : Nat)])] 5).1 = 0 ∧
        (cpp_map_erase [((2 : Nat), [(1 : Nat)])] 5).2 = [((2 : Nat), [(1 : Nat)])] ∧
        cpp_map_size (cpp_map_erase [((2 : Nat), [(1 : Nat)])] 5).2 =
          cpp_map_size [((2 : Nat), [(1 : Nat)])]) :=
  ⟨by decide, (c6_erase_contract [((2 : Nat), [(1 : Nat)])] 5).2.2.2 (by decide)⟩

/-- C7: on every table state reachable from a fresh table by insert/erase
calls, the wrapper's `size` equals the entry count produced by one full
iteration, and each live entry is visited exactly once. -/
theorem c7_size_iteration {κ : Type} [DecidableEq κ] (ops : List (TOp κ)) :
    cpp_map_size (runOps ops) = cpp_map_iter_count (runOps ops) ∧
      ∀ e ∈ runOps ops, countVisits e (runOps ops) = 1 := by
  constructor
  · show (runOps ops).length = (runOps ops).foldl (fun c _ => c + 1) 0
    rw [foldl_count_eq_length]
    omega
  · intro e he
    have hnd : (runOps ops).Nodup :=
      List.Nodup.of_map Prod.fst (nodup_keys_runOps ops)
    exact countVisits_eq_one (runOps ops) hnd e he

/-- Witness for C7 on the state reached by one insert. -/
theorem c7_size_iteration_witness :
    cpp_map_size (runOps [TOp.ins (1 : Nat) (fun _ => 7) 1]) =
        cpp_map_iter_count (runOps [TOp.ins (1 : Nat) (fun _ => 7) 1]) ∧
      countVisits (1, [7]) (runOps [TOp.ins (1 : Nat) (fun _ => 7) 1]) = 1 :=
  ⟨(c7_size_iteration [TOp.ins (1 : Nat) (fun _ => 7) 1]).1,
    (c7_size_iteration [TOp.ins (1 : Nat) (fun _ => 7) 1]).2 (1, [7]) (by decide)⟩

/-- C8: the `_memory` wrappers report reserved-bucket-count times per-entry
storage size plus the fixed per-table overhead, and the result carries no
per-key term: it depends only on the bucket count, never on the stored
entries. -/
theorem c8_memory_footprint {κ ν : Type} (t : CppTable κ ν) (es ov : Nat) :
    cpp_memory t es ov = spec_memory_nonowning t.buckets es ov ∧
      ∀ t2 : CppTable κ ν, t2.buckets = t.buckets →
        cpp_memory t2 es ov = cpp_memory t es ov := by
  refine ⟨rfl, fun t2 h => ?_⟩
  unfold cpp_memory
  rw [h]

/-- Witness for C8: two tables with equal bucket counts but different
entries report the same footprint. -/
theorem c8_memory_footprint_witness :
    cpp_memory ({ entries := [((1 : Nat), (2 : Nat))], buckets := 8 } : CppTable Nat Nat)
        16 32 = spec_memory_nonowning 8 16 32 ∧
      cpp_memory ({ entries := [], buckets := 8 } : CppTable Nat Nat) 16 32 =
        cpp_memory ({ entries := [((1 : Nat), (2 : Nat))], buckets := 8 } : CppTable Nat Nat)
          16 32 :=
  ⟨(c8_memory_footprint _ 16 32).1, (c8_memory_footprint _ 16 32).2 _ rfl⟩

/-- C9: for every cursor produced by `first` or any number of `next` steps,
`is_end` returns 1 exactly when the metadata pointer equals the metadata-end
pointer, which happens exactly when the forward scan has passed the last
bucket of the metadata array. -/
theorem c9_cursor_end (md : List Bool) (it : VtIter) (h : VtReach md it) :
    (vt_iter_is_end it = 1 ↔ it.metadatum = it.mdEnd) ∧
      (vt_iter_is_end it = 1 ↔ md.length ≤ it.metadatum) := by
  obtain ⟨hend, hle⟩ := vtReach_mdEnd h
  constructor
  · unfold vt_iter_is_end
    split
    · rename_i he; exact ⟨fun _ => he, fun _ => rfl⟩
    · rename_i he; exact ⟨fun h1 => by omega, fun hmm => (he hmm).elim⟩
  · unfold vt_iter_is_end
    split
    · rename_i he; exact ⟨fun _ => by omega, fun _ => rfl⟩
    · rename_i he
      refine ⟨fun h1 => by omega, fun hge => ?_⟩
      exact absurd (show it.metadatum = it.mdEnd by omega) he

/-- Witness for C9 on the one-bucket, all-empty metadata array: `first` is
already the end cursor. -/
theorem c9_cursor_end_witness :
    (vt_iter_is_end (vt_iter_first [false]) = 1 ↔
        (vt_iter_first [false]).metadatum = (vt_iter_first [false]).mdEnd) ∧
      (vt_iter_is_end (vt_iter_first [false]) = 1 ↔
        [false].length ≤ (vt_iter_first [false]).metadatum) :=
  c9_cursor_end [false] (vt_iter_first [false]) VtReach.first

/-- C10: with `len = 0`, `wyhash::hash` never reads a byte — any two byte
functions give the same result — and returns the fixed constant
`mix(secret1 XOR 0, mix(0 XOR secret1, 0 XOR secret0))`. -/
theorem c10_empty_input_constant (p q : Nat → Nat) :
    wyhash p 0 = wymix (secret1 ^^^ 0) (wymix (0 ^^^ secret1) (0 ^^^ secret0)) ∧
      wyhash p 0 = wyhash q 0 := by
  have h1 : ∀ r : Nat → Nat, wyhash r 0 = wyfinal 0 0 0 secret0 := by
    intro r
    unfold wyhash
    rw [if_pos (by norm_num : (0 : Nat) ≤ 16), if_neg (by norm_num : ¬(4 ≤ (0 : Nat))),
      if_neg (by norm_num : ¬(0 < (0 : Nat)))]
  constructor
  · rw [h1 p]
    unfold wyfinal
    rfl
  · rw [h1 p, h1 q]

end Verztable
